import Mathlib

/-!
Verification of the SENSE workflow agent (src/workflow-agent.py, src/lib/workflow.py).

The development shallowly embeds the relevant parts of the source:
Python floats are modelled by exact rationals, Python strings by Lean
strings manipulated through structurally recursive helpers (so that every
definition evaluates in the kernel), the YAML document tree by an inductive
`Doc` type, the mutable object graph built by the node parsers by an arena
(a list of nodes addressed by index), and the traversal loop of
workflow-agent.py by both a labelled step relation (which keeps the
dependency wait and the background completion of flows nondeterministic)
and a deterministic fuelled run function.
-/

set_option allowUnsafeReducibility true in
attribute [semireducible] Rat.mul Rat.inv Rat.add Rat.sub

namespace Sense

/-! ## String helpers (Python string primitives, structurally recursive) -/

/-- Python str.strip removes leading and trailing whitespace. -/
def isSpaceChar (c : Char) : Bool :=
  c = ' ' || c = '\t' || c = '\n' || c = '\r'

def trimChars (cs : List Char) : List Char :=
  ((cs.dropWhile isSpaceChar).reverse.dropWhile isSpaceChar).reverse

/-- Model of Python str.strip(). -/
def pyStrip (s : String) : String :=
  ⟨trimChars s.data⟩

/-- Model of the Python test `len(raw) >= n and raw[-n:] == t` used in the
quantity parsers: does `s` end with `t`. -/
def endsWithStr (s t : String) : Bool :=
  Nat.ble t.data.length s.data.length &&
    s.data.drop (s.data.length - t.data.length) == t.data

/-- Model of Python `raw[:-n]`: drop the last `n` characters. -/
def dropRightStr (s : String) (n : Nat) : String :=
  ⟨s.data.take (s.data.length - n)⟩

def isDigitChar (c : Char) : Bool :=
  '0' ≤ c && c ≤ '9'

def digitsToNat (cs : List Char) : Nat :=
  cs.foldl (fun a c => 10 * a + (c.toNat - '0'.toNat)) 0

/-- Model of Python float() applied to a plain decimal literal: optional
sign, then digits with at most one dot and at least one digit.  The exotic
inputs float() also accepts (exponents, underscores, inf, nan) never arise
in this program and are not modelled. -/
def pyFloat (s : String) : Option Rat :=
  let cs := trimChars s.data
  let (sign, cs) : Rat × List Char :=
    match cs with
    | '-' :: rest => (-1, rest)
    | '+' :: rest => (1, rest)
    | _ => (1, cs)
  let intPart := cs.takeWhile isDigitChar
  let rest := cs.dropWhile isDigitChar
  match rest with
  | [] =>
    if intPart.isEmpty then none
    else some (sign * (digitsToNat intPart : Rat))
  | '.' :: frac =>
    if frac.all isDigitChar && !(intPart.isEmpty && frac.isEmpty) then
      some (sign * ((digitsToNat intPart : Rat) +
        (digitsToNat frac : Rat) / (10 : Rat) ^ frac.length))
    else none
  | _ => none

/-! ## Rendering a Python float back to a string

The byte and duration formatters interpolate a Python float into a string.
All values the program formats are exact decimal fractions, for which the
repr of a Python float is the decimal expansion with trailing zeros removed
and at least one digit after the dot.  `floatRepr` reproduces that on the
rational model. -/

/-- Left-pad a digit string with zeros to width `w`. -/
def padZeros (w : Nat) (s : String) : String :=
  ⟨List.replicate (w - s.data.length) '0' ++ s.data⟩

/-- Smallest number of decimal digits (up to 17, the float repr limit) that
writes `q` exactly, if any. -/
def decExp (q : Rat) : Option Nat :=
  (List.range 18).find? (fun k => (q * (10 : Rat) ^ k).den == 1)

def floatReprNN (q : Rat) : String :=
  match decExp q with
  | some 0 => toString q.num ++ ".0"
  | some (k + 1) =>
    let m := (q * (10 : Rat) ^ (k + 1)).num.toNat
    toString (m / 10 ^ (k + 1)) ++ "." ++ padZeros (k + 1) (toString (m % 10 ^ (k + 1)))
  | none => toString q.num ++ "e" ++ toString q.den

/-- Repr of a Python float holding the exact decimal value `q`. -/
def floatRepr (q : Rat) : String :=
  if q < 0 then "-" ++ floatReprNN (-q) else floatReprNN q

/-! ## Bytes (workflow.py lines 29-173) -/

structure Bytes where
  amount : Rat
deriving DecidableEq, Repr

/-- Embedding of `Bytes._parse` (workflow.py lines 46-131).  The suffix
tests appear in exactly the order of the source `if`/`elif` chain; when no
suffix matches, the source logs an error but still falls through and
retries the numeric parse on the unchanged string (which fails again). -/
def Bytes.parse (raw : String) : Option Bytes :=
  let raw := pyStrip raw
  match pyFloat raw with
  | some x => some ⟨x⟩
  | none =>
    let (raw, factor) : String × Rat :=
      if endsWithStr raw "Kb" then (dropRightStr raw 2, 1000 / 8)
      else if endsWithStr raw "Kib" then (dropRightStr raw 3, 1024 / 8)
      else if endsWithStr raw "KB" then (dropRightStr raw 2, 1000)
      else if endsWithStr raw "KiB" then (dropRightStr raw 3, 1024)
      else if endsWithStr raw "Mb" then (dropRightStr raw 2, 1000 * 1000 / 8)
      else if endsWithStr raw "Mib" then (dropRightStr raw 3, 1024 * 1024 / 8)
      else if endsWithStr raw "MB" then (dropRightStr raw 2, 1000 * 1000)
      else if endsWithStr raw "MiB" then (dropRightStr raw 3, 1024 * 1024)
      else if endsWithStr raw "Gb" then (dropRightStr raw 2, 1000 * 1000 * 1000 / 8)
      else if endsWithStr raw "Gib" then (dropRightStr raw 3, 1024 * 1024 * 1024 / 8)
      else if endsWithStr raw "GB" then (dropRightStr raw 2, 1000 * 1000 * 1000)
      else if endsWithStr raw "GiB" then (dropRightStr raw 3, 1024 * 1024 * 1024)
      else if endsWithStr raw "b" then (dropRightStr raw 1, 1 / 8)
      else if endsWithStr raw "B" then (dropRightStr raw 1, 1)
      else (raw, 1)
    let raw := pyStrip raw
    match pyFloat raw with
    | some x => some ⟨factor * x⟩
    | none => none

/-- Embedding of `Bytes.as_human_bytes` (workflow.py lines 133-141). -/
def Bytes.as_human_bytes (b : Bytes) : String :=
  if b.amount ≥ 1000 * 1000 * 1000 then floatRepr (b.amount / (1000 * 1000 * 1000)) ++ " GB"
  else if b.amount ≥ 1000 * 1000 then floatRepr (b.amount / (1000 * 1000)) ++ " MB"
  else if b.amount ≥ 1000 then floatRepr (b.amount / 1000) ++ " KB"
  else floatRepr b.amount ++ " B"

/-- Embedding of `Bytes.as_human_bibi_bytes` (workflow.py lines 142-150). -/
def Bytes.as_human_bibi_bytes (b : Bytes) : String :=
  if b.amount ≥ 1024 * 1024 * 1024 then floatRepr (b.amount / (1024 * 1024 * 1024)) ++ " GiB"
  else if b.amount ≥ 1024 * 1024 then floatRepr (b.amount / (1024 * 1024)) ++ " MiB"
  else if b.amount ≥ 1024 then floatRepr (b.amount / 1024) ++ " KiB"
  else floatRepr b.amount ++ " B"

/-! ## Duration (workflow.py lines 175-270) -/

structure Duration where
  amount : Rat
deriving DecidableEq, Repr

/-- Embedding of `Duration._parse` (workflow.py lines 192-257).  The suffix
tests appear in exactly the order of the source chain: the one-character
suffix "s" is tested before "sec", "seconds", and before the minute and
hour suffixes. -/
def Duration.parse (raw : String) : Option Duration :=
  let raw := pyStrip raw
  match pyFloat raw with
  | some x => some ⟨x⟩
  | none =>
    let (raw, factor) : String × Rat :=
      if endsWithStr raw "s" then (dropRightStr raw 1, 1)
      else if endsWithStr raw "sec" then (dropRightStr raw 3, 1)
      else if endsWithStr raw "seconds" then (dropRightStr raw 7, 1)
      else if endsWithStr raw "m" then (dropRightStr raw 1, 60)
      else if endsWithStr raw "min" then (dropRightStr raw 3, 60)
      else if endsWithStr raw "minutes" then (dropRightStr raw 7, 60)
      else if endsWithStr raw "h" then (dropRightStr raw 1, 60 * 60)
      else if endsWithStr raw "hr" then (dropRightStr raw 2, 60 * 60)
      else if endsWithStr raw "hours" then (dropRightStr raw 5, 60 * 60)
      else (raw, 1)
    let raw := pyStrip raw
    match pyFloat raw with
    | some x => some ⟨factor * x⟩
    | none => none

/-- Embedding of `Duration.as_human_duration` (workflow.py lines 259-267),
including the singular form at exactly 1.0. -/
def Duration.as_human_duration (d : Duration) : String :=
  if d.amount ≥ 60 * 60 then
    let amount := d.amount / (60 * 60)
    floatRepr amount ++ " " ++ (if amount = 1 then "hour" else "hours")
  else if d.amount ≥ 60 then
    let amount := d.amount / 60
    floatRepr amount ++ " " ++ (if amount = 1 then "minute" else "minutes")
  else
    floatRepr d.amount ++ " " ++ (if d.amount = 1 then "second" else "seconds")

/-- Round trip of the SI byte formatter at `x`:
`format (parse (format x)) == format x`. -/
def rtSI (x : Rat) : Bool :=
  match Bytes.parse (Bytes.as_human_bytes ⟨x⟩) with
  | some b => b.as_human_bytes == Bytes.as_human_bytes ⟨x⟩
  | none => false

/-- Round trip of the IEC byte formatter at `x`. -/
def rtIEC (x : Rat) : Bool :=
  match Bytes.parse (Bytes.as_human_bibi_bytes ⟨x⟩) with
  | some b => b.as_human_bibi_bytes == Bytes.as_human_bibi_bytes ⟨x⟩
  | none => false

end Sense

namespace Sense

/-! ## Endpoint descriptors (workflow.py lines 272-464) -/

structure SourceInfo where
  interface : String
  port : Int
deriving DecidableEq, Repr

/-- Target addressing.  `TargetInfo.__init__` resolves a hostname through
the system resolver (an external effect, process-terminating on failure);
the model keeps the address string as given. -/
structure TargetInfo where
  addr : String
  port : Int
deriving DecidableEq, Repr

/-! ## Documents

The raw YAML parse (an external collaborator) delivers a nested
mapping/sequence/scalar tree; mappings have unique keys in document order,
modelled as association lists. -/

inductive Doc where
  | s (v : String)
  | i (v : Int)
  | m (kvs : List (String × Doc))
  | l (xs : List Doc)

/-- Loop of `SourceInfo._parse` (workflow.py lines 294-337) over the
document items: type and duplicate checks per field, warnings (ignored
fields) for unknown keys. -/
def SourceInfo.parseItems :
    List (String × Doc) → Option String → Option Int → Option (Option String × Option Int)
  | [], itf, port => some (itf, port)
  | (ty, fields) :: rest, itf, port =>
    if ty = "interface" then
      match fields with
      | .s v => if itf.isSome then none else SourceInfo.parseItems rest (some v) port
      | _ => none
    else if ty = "port" then
      match fields with
      | .i v => if port.isSome then none else SourceInfo.parseItems rest itf (some v)
      | _ => none
    else
      SourceInfo.parseItems rest itf port

/-- Embedding of `SourceInfo._parse`. -/
def SourceInfo.parse (data : List (String × Doc)) : Option SourceInfo :=
  match SourceInfo.parseItems data none none with
  | some (some itf, some port) => some ⟨itf, port⟩
  | _ => none

/-- Loop of `TargetInfo._parse` (workflow.py lines 401-444). -/
def TargetInfo.parseItems :
    List (String × Doc) → Option String → Option Int → Option (Option String × Option Int)
  | [], addr, port => some (addr, port)
  | (ty, fields) :: rest, addr, port =>
    if ty = "addr" then
      match fields with
      | .s v => if addr.isSome then none else TargetInfo.parseItems rest (some v) port
      | _ => none
    else if ty = "port" then
      match fields with
      | .i v => if port.isSome then none else TargetInfo.parseItems rest addr (some v)
      | _ => none
    else
      TargetInfo.parseItems rest addr port

/-- Embedding of `TargetInfo._parse`. -/
def TargetInfo.parse (data : List (String × Doc)) : Option TargetInfo :=
  match TargetInfo.parseItems data none none with
  | some (some addr, some port) => some ⟨addr, port⟩
  | _ => none

/-! ## Flows (workflow.py lines 471-704) -/

/-- `TimedNoiseFlow` data: time, bandwidth, chunk size, endpoints.  The
mutable `done` flag lives in the execution model, not in the parsed data. -/
structure TimedNoiseFlow where
  time : Duration
  bandwidth : Bytes
  chunk_size : Bytes
  source : SourceInfo
  target : TargetInfo
deriving DecidableEq, Repr

/-- Python `str(fields)` for the scalars accepted by the quantity fields. -/
def docScalarStr : Doc → Option String
  | .s v => some v
  | .i v => some (toString v)
  | _ => none

/-- Loop of `TimedNoiseFlow._parse` (workflow.py lines 595-684): the
`time`, `bandwidth` and `chunk_size` fields must be int or str and are fed
through the quantity parsers; `source` and `target` must be objects (and,
as in the source, carry no duplicate check); the `kind` key is skipped and
unknown keys only warn. -/
def TimedNoiseFlow.parseItems :
    List (String × Doc) → Option Duration → Option Bytes → Option Bytes →
    Option SourceInfo → Option TargetInfo →
    Option (Option Duration × Option Bytes × Option Bytes × Option SourceInfo × Option TargetInfo)
  | [], t, bw, cs, src, tgt => some (t, bw, cs, src, tgt)
  | (ty, fields) :: rest, t, bw, cs, src, tgt =>
    if ty = "time" then
      match docScalarStr fields with
      | none => none
      | some s =>
        if t.isSome then none
        else
          match Duration.parse s with
          | none => none
          | some d => TimedNoiseFlow.parseItems rest (some d) bw cs src tgt
    else if ty = "bandwidth" then
      match docScalarStr fields with
      | none => none
      | some s =>
        if bw.isSome then none
        else
          match Bytes.parse s with
          | none => none
          | some b => TimedNoiseFlow.parseItems rest t (some b) cs src tgt
    else if ty = "chunk_size" then
      match docScalarStr fields with
      | none => none
      | some s =>
        if cs.isSome then none
        else
          match Bytes.parse s with
          | none => none
          | some b => TimedNoiseFlow.parseItems rest t bw (some b) src tgt
    else if ty = "source" then
      match fields with
      | .m kvs =>
        match SourceInfo.parse kvs with
        | none => none
        | some si => TimedNoiseFlow.parseItems rest t bw cs (some si) tgt
      | _ => none
    else if ty = "target" then
      match fields with
      | .m kvs =>
        match TargetInfo.parse kvs with
        | none => none
        | some ti => TimedNoiseFlow.parseItems rest t bw cs src (some ti)
      | _ => none
    else
      TimedNoiseFlow.parseItems rest t bw cs src tgt

/-- Embedding of `TimedNoiseFlow._parse`. -/
def TimedNoiseFlow.parse (data : List (String × Doc)) : Option TimedNoiseFlow :=
  match TimedNoiseFlow.parseItems data none none none none none with
  | some (some t, some bw, some cs, some src, some tgt) => some ⟨t, bw, cs, src, tgt⟩
  | _ => none

/-- Embedding of `Flow._parse` (workflow.py lines 506-529): dispatch on the
`kind` discriminator; only TimedNoise is known. -/
def Flow.parse (data : List (String × Doc)) : Option TimedNoiseFlow :=
  match data.lookup "kind" with
  | some (.s kind) => if kind = "TimedNoise" then TimedNoiseFlow.parse data else none
  | some _ => none
  | none => none

end Sense

namespace Sense

/-! ## The spawned flow body (workflow.py lines 566-593)

`TimedNoiseFlow.spawn` starts a daemon thread running the nested `flow()`
function.  The body is embedded as a function of the successive readings of
`time.time()` at the loop guard (one reading per guard evaluation; `start`
is the reading taken before the loop).  Python dynamic typing is modelled
just enough to decide whether the two expressions in the loop body raise:
`sock.send(chunk, (str(addr), port))` passes a tuple where `socket.send`
expects its optional integer `flags` argument, and
`1.0 / (self.bandwidth / self.chunk_size)` divides two `Bytes` instances,
which define no arithmetic protocol. -/

inductive PyErr where
  | typeError
  | zeroDivisionError
deriving DecidableEq, Repr

inductive PyVal where
  | int (n : Int)
  | float (q : Rat)
  | str (s : String)
  | tup (xs : List PyVal)
  | bytesObj (amount : Rat)

/-- Python binary `/`: defined for numbers, a TypeError on anything else
(in particular on two `Bytes` instances). -/
def pyDiv : PyVal → PyVal → Except PyErr PyVal
  | .float x, .float y =>
    if y = 0 then .error .zeroDivisionError else .ok (.float (x / y))
  | .float x, .int m =>
    if m = 0 then .error .zeroDivisionError else .ok (.float (x / (m : Rat)))
  | .int n, .float y =>
    if y = 0 then .error .zeroDivisionError else .ok (.float ((n : Rat) / y))
  | .int n, .int m =>
    if m = 0 then .error .zeroDivisionError else .ok (.float ((n : Rat) / (m : Rat)))
  | _, _ => .error .typeError

/-- The optional second positional argument of `socket.send` is the integer
`flags`; any non-integer raises a TypeError. -/
def sendFlagsOk : PyVal → Bool
  | .int _ => true
  | _ => false

/-- Python `int()` truncation toward zero of the chunk size float. -/
def ratTruncZ (q : Rat) : Int :=
  q.num.tdiv (q.den : Int)

inductive FlowEv where
  | sent (size : Int)
  | slept (interval : Rat)
deriving DecidableEq, Repr

/-- The observable outcome of the thread body: the events it performed, the
uncaught exception that killed the thread (if any), and whether the final
`self.done = True` assignment was reached. -/
structure FlowOutcome where
  events : List FlowEv
  err : Option PyErr
  doneSet : Bool
deriving DecidableEq, Repr

/-- Embedding of the nested `flow()` body of `TimedNoiseFlow.spawn`
(workflow.py lines 571-589), driven by the list of `time.time()` readings
at the successive loop-guard evaluations.  An empty reading list leaves the
execution unfinished (no further observations). -/
def timedNoiseBody (f : TimedNoiseFlow) (start : Rat) : List Rat → FlowOutcome
  | [] => ⟨[], none, false⟩
  | t :: ts =>
    if t - start < f.time.amount then
      let chunkLen := ratTruncZ f.chunk_size.amount
      if sendFlagsOk (.tup [.str f.target.addr, .int f.target.port]) then
        match pyDiv (.bytesObj f.bandwidth.amount) (.bytesObj f.chunk_size.amount) with
        | .error e => ⟨[.sent chunkLen], some e, false⟩
        | .ok rate =>
          match pyDiv (.float 1) rate with
          | .error e => ⟨[.sent chunkLen], some e, false⟩
          | .ok (.float w) =>
            let rest := timedNoiseBody f start ts
            ⟨.sent chunkLen :: .slept w :: rest.events, rest.err, rest.doneSet⟩
          | .ok _ => ⟨[.sent chunkLen], some .typeError, false⟩
      else ⟨[], some .typeError, false⟩
    else ⟨[], none, true⟩

end Sense

namespace Sense

/-! ## Graph model and node parsers (workflow.py lines 711-1101)

The Python parsers build a graph of mutable node objects and wire edges by
appending to the `incoming` and `outgoing` lists of freshly created nodes.
The embedding uses an arena: a list of nodes addressed by position, grown
by allocation at the end; `incoming` and `outgoing` are lists of arena
indices.  A parse function that fails returns `none` and its allocations
are discarded (as the corresponding Python objects are garbage). -/

inductive NodeKind where
  | start
  | flow (f : TimedNoiseFlow)
  | endK

structure ANode where
  kind : NodeKind
  name : Doc
  incoming : List Nat
  outgoing : List Nat

/-- Point update of an arena entry. -/
def listModify : List ANode → Nat → (ANode → ANode) → List ANode
  | [], _, _ => []
  | a :: rest, 0, f => f a :: rest
  | a :: rest, n + 1, f => a :: listModify rest n f

/-- Embedding of the edge wiring `nested.incoming.append(node)` followed by
`node.outgoing.append(nested)` (workflow.py lines 826-827, 940-941). -/
def addEdge (ar : List ANode) (parent child : Nat) : List ANode :=
  listModify (listModify ar child (fun a => { a with incoming := a.incoming ++ [parent] }))
    parent (fun a => { a with outgoing := a.outgoing ++ [child] })

/-- Python `len(node.outgoing)` for an arena index. -/
def outLen (ar : List ANode) (i : Nat) : Nat :=
  ((ar[i]?).map (fun a => a.outgoing.length)).getD 0

/-- In the source the guards read `if ty != "start" and type != "<start>"`
(and likewise for flow and end): the second comparand is the Python builtin
`type`, not the loop variable `ty`, so the comparison with the string is
always true. -/
def pyTypeNe (_bracketed : String) : Bool :=
  true

/-- The type of `Node._parse`-shaped functions, abstracted so that the
child-list loops can be stated and proved uniformly. -/
abbrev NP := List ANode → Doc → Option (Nat × List ANode)

/-- The child loop shared by `StartNode._parse` and `FlowNode._parse`
(workflow.py lines 823-830, 937-944): parse each nested document with
`Node._parse`; on success append the parent to the child incoming list and
the child to the parent outgoing list; on failure abort. -/
def parseChildren (np : NP) : List Doc → List ANode → Nat → Option (List ANode)
  | [], ar, _ => some ar
  | d :: rest, ar, parent =>
    match np ar d with
    | some (c, ar1) => parseChildren np rest (addEdge ar1 parent c) parent
    | none => none

/-- Item loop of `EndNode._parse` (workflow.py lines 999-1022). -/
def endNodeItems : List (String × Doc) → List ANode → Option Nat →
    Option (List ANode × Option Nat)
  | [], ar, node => some (ar, node)
  | (ty, fields) :: rest, ar, node =>
    if ty != "end" && pyTypeNe "<end>" then none
    else if node.isSome then none
    else
      match fields with
      | .m fkvs =>
        match fkvs.lookup "name" with
        | some nm => endNodeItems rest (ar ++ [⟨.endK, nm, [], []⟩]) (some ar.length)
        | none => none
      | _ => none

/-- Embedding of `EndNode._parse`.  A non-mapping document makes the Python
`data.items()` call raise; no node is returned either way. -/
def endNodeParse (ar : List ANode) (d : Doc) : Option (Nat × List ANode) :=
  match d with
  | .m kvs =>
    match endNodeItems kvs ar none with
    | some (ar2, some n) => some (n, ar2)
    | _ => none
  | _ => none

/-- Item loop of `FlowNode._parse` (workflow.py lines 895-950): key and
duplicate checks, `name`, a `flow` object fed through `Flow._parse`, then
the `next` list of children, rejecting an empty outgoing list. -/
def flowNodeItems (np : NP) : List (String × Doc) → List ANode → Option Nat →
    Option (List ANode × Option Nat)
  | [], ar, node => some (ar, node)
  | (ty, fields) :: rest, ar, node =>
    if ty != "flow" && pyTypeNe "<flow>" then none
    else if node.isSome then none
    else
      match fields with
      | .m fkvs =>
        match fkvs.lookup "name" with
        | some nm =>
          match fkvs.lookup "flow" with
          | some (.m flowKvs) =>
            match Flow.parse flowKvs with
            | some fl =>
              match fkvs.lookup "next" with
              | some (.l next) =>
                match parseChildren np next (ar ++ [⟨.flow fl, nm, [], []⟩]) ar.length with
                | some ar2 =>
                  if outLen ar2 ar.length = 0 then none
                  else flowNodeItems np rest ar2 (some ar.length)
                | none => none
              | _ => none
            | none => none
          | _ => none
        | none => none
      | _ => none

/-- Embedding of `FlowNode._parse`, abstracted over `Node._parse`. -/
def flowNodeParseAux (np : NP) (ar : List ANode) (d : Doc) : Option (Nat × List ANode) :=
  match d with
  | .m kvs =>
    match flowNodeItems np kvs ar none with
    | some (ar2, some n) => some (n, ar2)
    | _ => none
  | _ => none

/-- Embedding of `Node._parse` (workflow.py lines 745-757): try
`FlowNode._parse`, then `EndNode._parse` (the `StartNode._parse` attempt is
commented out in the source).  The fuel bounds the nesting depth; every
document is parsed fully by any fuel exceeding its depth. -/
def nodeParse : Nat → NP
  | 0 => fun _ _ => none
  | fuel + 1 => fun ar d =>
    match flowNodeParseAux (nodeParse fuel) ar d with
    | some r => some r
    | none => endNodeParse ar d

/-- Item loop of `StartNode._parse` (workflow.py lines 793-836). -/
def startNodeItems (np : NP) : List (String × Doc) → List ANode → Option Nat →
    Option (List ANode × Option Nat)
  | [], ar, node => some (ar, node)
  | (ty, fields) :: rest, ar, node =>
    if ty != "start" && pyTypeNe "<start>" then none
    else if node.isSome then none
    else
      match fields with
      | .m fkvs =>
        match fkvs.lookup "name" with
        | some nm =>
          match fkvs.lookup "next" with
          | some (.l next) =>
            match parseChildren np next (ar ++ [⟨.start, nm, [], []⟩]) ar.length with
            | some ar2 =>
              if outLen ar2 ar.length = 0 then none
              else startNodeItems np rest ar2 (some ar.length)
            | none => none
          | _ => none
        | none => none
      | _ => none

/-- Embedding of `StartNode._parse`, starting from an empty arena (Python
builds fresh objects). -/
def startNodeParse (fuel : Nat) (d : Doc) : Option (Nat × List ANode) :=
  match d with
  | .m kvs =>
    match startNodeItems (nodeParse fuel) kvs [] none with
    | some (ar2, some n) => some (n, ar2)
    | _ => none
  | _ => none

structure Workflow where
  name : String
  arena : List ANode
  root : Nat

/-- Embedding of `Workflow.parse_handle` (workflow.py lines 1068-1101)
after the external YAML load: `none` input data (empty document) yields the
placeholder workflow with a childless Start node named "<start>"; otherwise
the document must parse as a Start node, and failure exits the process
(modelled by `none`). -/
def parseHandle (name : String) (data : Option Doc) (fuel : Nat) : Option Workflow :=
  match data with
  | none => some ⟨name, [⟨.start, .s "<start>", [], []⟩], 0⟩
  | some d =>
    match startNodeParse fuel d with
    | some (root, ar) => some ⟨name, ar, root⟩
    | none => none

/-! ## Execution engine (workflow-agent.py lines 53-83)

The traversal loop pops a node from the stack, waits until every incoming
Flow-kind node has its `done` flag set, spawns the flow of a Flow-kind
node fire-and-forget, and appends all outgoing children to the stack.  The
labelled step relation `EStep` keeps the only nondeterminism of the
program: a spawned flow finishing in the background (`finish`).  Edges are
never written by the loop, so the arena is a fixed parameter. -/

def incomingOf (ar : List ANode) (n : Nat) : List Nat :=
  ((ar[n]?).map ANode.incoming).getD []

def outgoingOf (ar : List ANode) (n : Nat) : List Nat :=
  ((ar[n]?).map ANode.outgoing).getD []

/-- `isinstance(node, workflow.FlowNode)`. -/
def isFlowNode (ar : List ANode) (n : Nat) : Bool :=
  match ar[n]? with
  | some a =>
    match a.kind with
    | .flow _ => true
    | _ => false
  | none => false

/-- Engine state: the explicit work stack (top at the head; Python pushes
with `append` and pops from the end), the set of flows whose `done` flag
has been set, and the set of flows spawned so far. -/
structure TState where
  stack : List Nat
  doneFlags : List Nat
  spawned : List Nat

inductive ELabel where
  | process (n : Nat)
  | finish (n : Nat)

/-- One step of the system: `process` pops the top node once all its
incoming Flow-kind nodes are done (the wait loop of workflow-agent.py
lines 59-71), spawns it when it is a Flow-kind node (line 76), and pushes
its outgoing children in order (lines 79-80), which on a head-first stack
prepends the reversed child list; `finish` is a previously spawned flow
completing in the background. -/
inductive EStep (ar : List ANode) : TState → ELabel → TState → Prop where
  | process : ∀ (s : TState) (n : Nat) (rest : List Nat),
      s.stack = n :: rest →
      (∀ p ∈ incomingOf ar n, isFlowNode ar p = true → p ∈ s.doneFlags) →
      EStep ar s (ELabel.process n)
        ⟨(outgoingOf ar n).reverse ++ rest, s.doneFlags,
          if isFlowNode ar n then s.spawned ++ [n] else s.spawned⟩
  | finish : ∀ (s : TState) (n : Nat),
      n ∈ s.spawned → n ∉ s.doneFlags →
      EStep ar s (ELabel.finish n) ⟨s.stack, s.doneFlags ++ [n], s.spawned⟩

/-- Deterministic fuelled run of the traversal loop: the visit order of the
nodes and the flows spawned, in order.  The dependency wait is elided (it
delays processing but never reorders or skips it); on a graph without
Flow-kind nodes the loop of workflow-agent.py never sleeps and this is the
exact behaviour. -/
def engineRun (ar : List ANode) : Nat → List Nat → List Nat × List Nat
  | 0, _ => ([], [])
  | _, [] => ([], [])
  | fuel + 1, n :: rest =>
    let r := engineRun ar fuel ((outgoingOf ar n).reverse ++ rest)
    (n :: r.1, (if isFlowNode ar n then [n] else []) ++ r.2)

end Sense

namespace Sense

/-! ## Arena helper lemmas -/

theorem length_listModify (l : List ANode) (i : Nat) (f : ANode → ANode) :
    (listModify l i f).length = l.length := by
  induction l generalizing i with
  | nil => rfl
  | cons a rest ih =>
    cases i with
    | zero => rfl
    | succ n => simpa [listModify] using ih n

theorem getElem?_listModify_ne (l : List ANode) (i k : Nat) (f : ANode → ANode)
    (h : i ≠ k) : (listModify l i f)[k]? = l[k]? := by
  induction l generalizing i k with
  | nil => rfl
  | cons a rest ih =>
    cases i with
    | zero =>
      cases k with
      | zero => exact absurd rfl h
      | succ m => simp [listModify]
    | succ n =>
      cases k with
      | zero => simp [listModify]
      | succ m =>
        simp only [listModify, List.getElem?_cons_succ]
        exact ih n m (fun hc => h (by rw [hc]))

theorem getElem?_listModify_self (l : List ANode) (i : Nat) (f : ANode → ANode)
    (a : ANode) (h : l[i]? = some a) : (listModify l i f)[i]? = some (f a) := by
  induction l generalizing i with
  | nil => simp at h
  | cons x rest ih =>
    cases i with
    | zero =>
      simp only [List.getElem?_cons_zero, Option.some.injEq] at h
      simp [listModify, h]
    | succ n =>
      simp only [List.getElem?_cons_succ] at h
      simpa [listModify] using ih n h

theorem length_addEdge (ar : List ANode) (p c : Nat) :
    (addEdge ar p c).length = ar.length := by
  simp [addEdge, length_listModify]

theorem getElem?_addEdge_other (ar : List ANode) (p c k : Nat)
    (hp : k ≠ p) (hc : k ≠ c) : (addEdge ar p c)[k]? = ar[k]? := by
  rw [addEdge, getElem?_listModify_ne _ _ _ _ (fun h => hp h.symm),
    getElem?_listModify_ne _ _ _ _ (fun h => hc h.symm)]

theorem getElem?_addEdge_parent (ar : List ANode) (p c : Nat) (pa : ANode)
    (hne : p ≠ c) (h : ar[p]? = some pa) :
    (addEdge ar p c)[p]? = some { pa with outgoing := pa.outgoing ++ [c] } := by
  rw [addEdge]
  exact getElem?_listModify_self _ _ _ _
    (by rw [getElem?_listModify_ne _ _ _ _ (fun hh => hne hh.symm)]; exact h)

theorem getElem?_addEdge_child (ar : List ANode) (p c : Nat) (ca : ANode)
    (hne : p ≠ c) (h : ar[c]? = some ca) :
    (addEdge ar p c)[c]? = some { ca with incoming := ca.incoming ++ [p] } := by
  rw [addEdge, getElem?_listModify_ne _ _ _ _ hne]
  exact getElem?_listModify_self _ _ _ _ h

end Sense

namespace Sense

theorem getElem?_append_new (ar : List ANode) (v : ANode) (k : Nat) (hk : ar.length ≤ k) :
    (ar ++ [v])[k]? = if k = ar.length then some v else none := by
  rw [List.getElem?_append_right hk]
  rcases Nat.lt_or_ge k (ar.length + 1) with h | h
  · have : k = ar.length := by omega
    simp [this]
  · have hne : k ≠ ar.length := by omega
    have : 1 ≤ k - ar.length := by omega
    simp only [hne, if_false]
    exact List.getElem?_eq_none (by simpa using this)

/-- Postcondition of a successful nested node parse (`Node._parse` through
`FlowNode._parse` or `EndNode._parse`) on an arena: the new subtree root
sits at the old length, old entries are untouched, all new edges stay
inside the new region and are symmetric, the root has no incoming edge yet
and every other new node has exactly one, and no new node is Start-kind. -/
structure NPost (ar : List ANode) (i : Nat) (ar2 : List ANode) : Prop where
  root : i = ar.length
  lt : ar.length < ar2.length
  frame : ∀ k, k < ar.length → ar2[k]? = ar[k]?
  freshInc : ∀ k a, ar.length ≤ k → ar2[k]? = some a →
    ∀ j ∈ a.incoming, ar.length ≤ j ∧ j < ar2.length
  freshOut : ∀ k a, ar.length ≤ k → ar2[k]? = some a →
    ∀ j ∈ a.outgoing, ar.length ≤ j ∧ j < ar2.length
  one : ∀ k a, ar.length ≤ k → ar2[k]? = some a → k ≠ i → a.incoming.length = 1
  rootInc : ∀ a, ar2[i]? = some a → a.incoming = []
  kindNS : ∀ k a, ar.length ≤ k → ar2[k]? = some a → a.kind ≠ NodeKind.start
  sym : ∀ j k a b, ar.length ≤ j → ar.length ≤ k → ar2[j]? = some a → ar2[k]? = some b →
    (k ∈ a.outgoing ↔ j ∈ b.incoming)

/-- Postcondition of the child loop `parseChildren` relative to its own
input arena: the parent (an existing node) gains the new subtree roots as
outgoing edges, each new node has exactly one incoming edge (the parent
for subtree roots, an inner parent otherwise), and all edges touching the
new region are symmetric. -/
structure CPost (ar : List ANode) (parent : Nat) (ar2 : List ANode) : Prop where
  le : ar.length ≤ ar2.length
  frame : ∀ k, k < ar.length → k ≠ parent → ar2[k]? = ar[k]?
  par : ∀ pa, ar[parent]? = some pa →
    ∃ roots, ar2[parent]? = some { pa with outgoing := pa.outgoing ++ roots } ∧
      (∀ r ∈ roots, ar.length ≤ r ∧ r < ar2.length) ∧
      (∀ k a, ar.length ≤ k → ar2[k]? = some a → (parent ∈ a.incoming ↔ k ∈ roots))
  freshInc : ∀ k a, ar.length ≤ k → ar2[k]? = some a →
    a.incoming.length = 1 ∧ ∀ j ∈ a.incoming, j = parent ∨ (ar.length ≤ j ∧ j < ar2.length)
  freshOut : ∀ k a, ar.length ≤ k → ar2[k]? = some a →
    ∀ j ∈ a.outgoing, ar.length ≤ j ∧ j < ar2.length
  kindNS : ∀ k a, ar.length ≤ k → ar2[k]? = some a → a.kind ≠ NodeKind.start
  sym : ∀ j k a b, ar.length ≤ j → ar.length ≤ k → ar2[j]? = some a → ar2[k]? = some b →
    (k ∈ a.outgoing ↔ j ∈ b.incoming)

theorem lt_of_getElem?_some {l : List ANode} {k : Nat} {a : ANode}
    (h : l[k]? = some a) : k < l.length := by
  by_contra hh
  rw [List.getElem?_eq_none (by omega)] at h
  exact Option.noConfusion h

theorem cpost_refl (ar : List ANode) (parent : Nat) : CPost ar parent ar where
  le := Nat.le_refl _
  frame := fun _ _ _ => rfl
  par := fun pa hpa => by
    refine ⟨[], by simpa using hpa, by simp, ?_⟩
    intro k a hk ha
    exact absurd (lt_of_getElem?_some ha) (by omega)
  freshInc := fun k a hk ha =>
    absurd (lt_of_getElem?_some ha) (by omega)
  freshOut := fun k a hk ha =>
    absurd (lt_of_getElem?_some ha) (by omega)
  kindNS := fun k a hk ha =>
    absurd (lt_of_getElem?_some ha) (by omega)
  sym := fun j k a b hj hk ha hb =>
    absurd (lt_of_getElem?_some ha) (by omega)

end Sense

namespace Sense

/-- Wiring one freshly parsed child into the parent extends a child-loop
invariant by one subtree. -/
theorem cpost_step (ar ar1 : List ANode) (parent c : Nat)
    (hp : parent < ar.length) (np : NPost ar c ar1) :
    CPost ar parent (addEdge ar1 parent c) := by
  have hc : c = ar.length := np.root
  have hpc : parent ≠ c := by omega
  have hlen : (addEdge ar1 parent c).length = ar1.length := length_addEdge ar1 parent c
  have hclt : c < ar1.length := by rw [hc]; exact np.lt
  obtain ⟨ca, hca⟩ : ∃ x, ar1[c]? = some x := ⟨_, List.getElem?_eq_getElem hclt⟩
  have hcinc : ca.incoming = [] := np.rootInc ca hca
  have hchild : (addEdge ar1 parent c)[c]? =
      some { ca with incoming := ca.incoming ++ [parent] } :=
    getElem?_addEdge_child ar1 parent c ca hpc hca
  have hcget : ∀ a, (addEdge ar1 parent c)[c]? = some a →
      a.incoming = [parent] ∧ a.outgoing = ca.outgoing ∧ a.kind = ca.kind := by
    intro a ha
    rw [hchild, Option.some.injEq] at ha
    rw [← ha, hcinc]
    exact ⟨rfl, rfl, rfl⟩
  refine ⟨?_, ?_, ?_, ?_, ?_, ?_, ?_⟩
  · rw [hlen]; exact Nat.le_of_lt np.lt
  · intro k hk hkp
    have hkc : k ≠ c := by omega
    rw [getElem?_addEdge_other _ _ _ _ hkp hkc]
    exact np.frame k hk
  · intro pa hpa
    have hpa1 : ar1[parent]? = some pa := by rw [np.frame parent hp]; exact hpa
    refine ⟨[c], getElem?_addEdge_parent ar1 parent c pa hpc hpa1, ?_, ?_⟩
    · intro r hr
      rw [List.mem_singleton] at hr
      rw [hr]
      exact ⟨by omega, by rw [hlen]; exact hclt⟩
    · intro k a hk ha
      by_cases hkc : k = c
      · rw [hkc] at ha ⊢
        rw [(hcget a ha).1]
        simp
      · have hkp : k ≠ parent := by omega
        rw [getElem?_addEdge_other _ _ _ _ hkp hkc] at ha
        constructor
        · intro hmem
          exact absurd (np.freshInc k a hk ha parent hmem).1 (by omega)
        · intro hmem
          rw [List.mem_singleton] at hmem
          exact absurd hmem hkc
  · intro k a hk ha
    by_cases hkc : k = c
    · rw [hkc] at ha
      rw [(hcget a ha).1]
      exact ⟨rfl, fun j hj => Or.inl (List.mem_singleton.mp hj)⟩
    · have hkp : k ≠ parent := by omega
      rw [getElem?_addEdge_other _ _ _ _ hkp hkc] at ha
      refine ⟨np.one k a hk ha hkc, ?_⟩
      intro j hj
      have hjb := np.freshInc k a hk ha j hj
      exact Or.inr ⟨hjb.1, by rw [hlen]; exact hjb.2⟩
  · intro k a hk ha
    by_cases hkc : k = c
    · rw [hkc] at ha
      rw [(hcget a ha).2.1]
      intro j hj
      have hjb := np.freshOut c ca (by omega) hca j hj
      exact ⟨hjb.1, by rw [hlen]; exact hjb.2⟩
    · have hkp : k ≠ parent := by omega
      rw [getElem?_addEdge_other _ _ _ _ hkp hkc] at ha
      intro j hj
      have hjb := np.freshOut k a hk ha j hj
      exact ⟨hjb.1, by rw [hlen]; exact hjb.2⟩
  · intro k a hk ha
    by_cases hkc : k = c
    · rw [hkc] at ha
      rw [(hcget a ha).2.2]
      exact np.kindNS c ca (by omega) hca
    · have hkp : k ≠ parent := by omega
      rw [getElem?_addEdge_other _ _ _ _ hkp hkc] at ha
      exact np.kindNS k a hk ha
  · intro j k a b hj hk ha hb
    by_cases hjc : j = c
    · rw [hjc] at ha hj ⊢
      obtain ⟨hai, hao, _⟩ := hcget a ha
      by_cases hkc : k = c
      · rw [hkc] at hb ⊢
        obtain ⟨hbi, _, _⟩ := hcget b hb
        rw [hao, hbi, np.sym c c ca ca hj hj hca hca, hcinc]
        simp [hpc.symm]
      · have hkp : k ≠ parent := by omega
        rw [getElem?_addEdge_other _ _ _ _ hkp hkc] at hb
        rw [hao]
        exact np.sym c k ca b hj hk hca hb
    · have hjp : j ≠ parent := by omega
      rw [getElem?_addEdge_other _ _ _ _ hjp hjc] at ha
      by_cases hkc : k = c
      · rw [hkc] at hb hk ⊢
        obtain ⟨hbi, _, _⟩ := hcget b hb
        rw [hbi, List.mem_singleton]
        rw [np.sym j c a ca hj hk ha hca, hcinc]
        simp
        omega
      · have hkp : k ≠ parent := by omega
        rw [getElem?_addEdge_other _ _ _ _ hkp hkc] at hb
        exact np.sym j k a b hj hk ha hb

end Sense

namespace Sense

/-- Child-loop invariants compose along successive children. -/
theorem cpost_trans (ar arA arB : List ANode) (parent : Nat)
    (hp : parent < ar.length)
    (c1 : CPost ar parent arA) (c2 : CPost arA parent arB) :
    CPost ar parent arB := by
  have hle : ar.length ≤ arA.length := c1.le
  have hle2 : arA.length ≤ arB.length := c2.le
  refine ⟨Nat.le_trans c1.le c2.le, ?_, ?_, ?_, ?_, ?_, ?_⟩
  · intro k hk hkp
    rw [c2.frame k (by omega) hkp]
    exact c1.frame k hk hkp
  · intro pa hpa
    obtain ⟨r1, hparA, hb1, hiff1⟩ := c1.par pa hpa
    obtain ⟨r2, hparB, hb2, hiff2⟩ := c2.par _ hparA
    refine ⟨r1 ++ r2, ?_, ?_, ?_⟩
    · rw [hparB]
      simp [List.append_assoc]
    · intro r hr
      rcases List.mem_append.mp hr with h | h
      · have := hb1 r h
        exact ⟨this.1, by omega⟩
      · have := hb2 r h
        exact ⟨by omega, this.2⟩
    · intro k a hk ha
      by_cases hkA : k < arA.length
      · have hkp : k ≠ parent := by omega
        rw [c2.frame k hkA hkp] at ha
        rw [hiff1 k a hk ha]
        simp only [List.mem_append]
        constructor
        · exact Or.inl
        · rintro (h | h)
          · exact h
          · exact absurd (hb2 k h).1 (by omega)
      · rw [hiff2 k a (by omega) ha]
        simp only [List.mem_append]
        constructor
        · exact Or.inr
        · rintro (h | h)
          · exact absurd (hb1 k h).2 (by omega)
          · exact h
  · intro k a hk ha
    by_cases hkA : k < arA.length
    · have hkp : k ≠ parent := by omega
      rw [c2.frame k hkA hkp] at ha
      obtain ⟨hlen1, helts⟩ := c1.freshInc k a hk ha
      refine ⟨hlen1, ?_⟩
      intro j hj
      rcases helts j hj with h | h
      · exact Or.inl h
      · exact Or.inr ⟨h.1, by omega⟩
    · obtain ⟨hlen1, helts⟩ := c2.freshInc k a (by omega) ha
      refine ⟨hlen1, ?_⟩
      intro j hj
      rcases helts j hj with h | h
      · exact Or.inl h
      · exact Or.inr ⟨by omega, h.2⟩
  · intro k a hk ha
    by_cases hkA : k < arA.length
    · have hkp : k ≠ parent := by omega
      rw [c2.frame k hkA hkp] at ha
      intro j hj
      have := c1.freshOut k a hk ha j hj
      exact ⟨this.1, by omega⟩
    · intro j hj
      have := c2.freshOut k a (by omega) ha j hj
      exact ⟨by omega, this.2⟩
  · intro k a hk ha
    by_cases hkA : k < arA.length
    · have hkp : k ≠ parent := by omega
      rw [c2.frame k hkA hkp] at ha
      exact c1.kindNS k a hk ha
    · exact c2.kindNS k a (by omega) ha
  · intro j k a b hj hk ha hb
    by_cases hjA : j < arA.length
    · have hjp : j ≠ parent := by omega
      rw [c2.frame j hjA hjp] at ha
      by_cases hkA : k < arA.length
      · have hkp : k ≠ parent := by omega
        rw [c2.frame k hkA hkp] at hb
        exact c1.sym j k a b hj hk ha hb
      · constructor
        · intro hmem
          exact absurd (c1.freshOut j a hj ha k hmem).2 hkA
        · intro hmem
          rcases (c2.freshInc k b (by omega) hb).2 j hmem with h | h
          · exact absurd h hjp
          · exact absurd h.1 (by omega)
    · by_cases hkA : k < arA.length
      · have hkp : k ≠ parent := by omega
        rw [c2.frame k hkA hkp] at hb
        constructor
        · intro hmem
          exact absurd (c2.freshOut j a (by omega) ha k hmem).1 (by omega)
        · intro hmem
          rcases (c1.freshInc k b hk hb).2 j hmem with h | h
          · exact absurd h (by omega)
          · exact absurd h.2 (by omega)
      · exact c2.sym j k a b (by omega) (by omega) ha hb

end Sense

namespace Sense

/-- The child loop establishes the child-loop invariant, assuming the node
parser it is given establishes the node postcondition. -/
theorem parseChildren_post (np : NP)
    (hnp : ∀ ar d i ar2, np ar d = some (i, ar2) → NPost ar i ar2) :
    ∀ (ds : List Doc) (ar : List ANode) (parent : Nat) (ar2 : List ANode),
      parent < ar.length → parseChildren np ds ar parent = some ar2 →
      CPost ar parent ar2 := by
  intro ds
  induction ds with
  | nil =>
    intro ar parent ar2 hp h
    simp only [parseChildren, Option.some.injEq] at h
    rw [← h]
    exact cpost_refl ar parent
  | cons d rest ih =>
    intro ar parent ar2 hp h
    simp only [parseChildren] at h
    cases hnd : np ar d with
    | none =>
      rw [hnd] at h
      exact absurd h (by simp)
    | some r =>
      obtain ⟨c, ar1⟩ := r
      rw [hnd] at h
      have np1 := hnp ar d c ar1 hnd
      have hlt := np1.lt
      have hstep := cpost_step ar ar1 parent c hp np1
      have hp2 : parent < (addEdge ar1 parent c).length := by
        rw [length_addEdge]; omega
      exact cpost_trans ar _ ar2 parent hp hstep (ih _ parent ar2 hp2 h)

/-- Allocating a fresh node and running the child loop on it yields the
node postcondition (used for `FlowNode._parse`; the fresh node is not
Start-kind). -/
theorem npost_of_cpost (ar : List ANode) (v : ANode) (arC : List ANode)
    (hinc : v.incoming = []) (hout : v.outgoing = [])
    (hns : v.kind ≠ NodeKind.start)
    (cp : CPost (ar ++ [v]) ar.length arC) : NPost ar ar.length arC := by
  have hL1 : (ar ++ [v]).length = ar.length + 1 := by simp
  have hvget : (ar ++ [v])[ar.length]? = some v := by
    rw [getElem?_append_new ar v ar.length (Nat.le_refl _)]
    simp
  obtain ⟨roots, hroot, hrb, hriff⟩ := cp.par v hvget
  have hlt : ar.length < arC.length := by
    have := cp.le
    omega
  have hrget : ∀ a, arC[ar.length]? = some a →
      a.incoming = [] ∧ a.outgoing = roots ∧ a.kind = v.kind := by
    intro a ha
    rw [hroot, Option.some.injEq] at ha
    rw [← ha, hinc, hout]
    exact ⟨rfl, List.nil_append roots, rfl⟩
  refine ⟨rfl, hlt, ?_, ?_, ?_, ?_, ?_, ?_, ?_⟩
  · intro k hk
    rw [cp.frame k (by omega) (by omega)]
    exact List.getElem?_append_left hk
  · intro k a hk ha
    by_cases hkL : k = ar.length
    · rw [hkL] at ha
      rw [(hrget a ha).1]
      intro j hj
      exact absurd hj (List.not_mem_nil j)
    · obtain ⟨_, helts⟩ := cp.freshInc k a (by omega) ha
      intro j hj
      rcases helts j hj with h | h
      · rw [h]
        exact ⟨Nat.le_refl _, hlt⟩
      · exact ⟨by omega, h.2⟩
  · intro k a hk ha
    by_cases hkL : k = ar.length
    · rw [hkL] at ha
      rw [(hrget a ha).2.1]
      intro j hj
      have := hrb j hj
      exact ⟨by omega, this.2⟩
    · intro j hj
      have := cp.freshOut k a (by omega) ha j hj
      exact ⟨by omega, this.2⟩
  · intro k a hk ha hkne
    exact (cp.freshInc k a (by omega) ha).1
  · intro a ha
    exact (hrget a ha).1
  · intro k a hk ha
    by_cases hkL : k = ar.length
    · rw [hkL] at ha
      rw [(hrget a ha).2.2]
      exact hns
    · exact cp.kindNS k a (by omega) ha
  · intro j k a b hj hk ha hb
    by_cases hjL : j = ar.length
    · rw [hjL] at ha hj ⊢
      obtain ⟨hai, hao, _⟩ := hrget a ha
      by_cases hkL : k = ar.length
      · rw [hkL] at hb ⊢
        obtain ⟨hbi, _, _⟩ := hrget b hb
        rw [hao, hbi]
        constructor
        · intro hmem
          exact absurd (hrb _ hmem).1 (by omega)
        · intro hmem
          exact absurd hmem (List.not_mem_nil _)
      · rw [hao]
        exact (hriff k b (by omega) hb).symm
    · by_cases hkL : k = ar.length
      · rw [hkL] at hb ⊢
        obtain ⟨hbi, _, _⟩ := hrget b hb
        rw [hbi]
        constructor
        · intro hmem
          exact absurd (cp.freshOut j a (by omega) ha _ hmem).1 (by omega)
        · intro hmem
          exact absurd hmem (List.not_mem_nil _)
      · exact cp.sym j k a b (by omega) (by omega) ha hb

end Sense

namespace Sense

/-- Postcondition of a successful `StartNode._parse`: as `NPost` but the
root is the (only) Start-kind node. -/
structure SPost (ar : List ANode) (i : Nat) (ar2 : List ANode) : Prop where
  root : i = ar.length
  lt : ar.length < ar2.length
  frame : ∀ k, k < ar.length → ar2[k]? = ar[k]?
  freshInc : ∀ k a, ar.length ≤ k → ar2[k]? = some a →
    ∀ j ∈ a.incoming, ar.length ≤ j ∧ j < ar2.length
  freshOut : ∀ k a, ar.length ≤ k → ar2[k]? = some a →
    ∀ j ∈ a.outgoing, ar.length ≤ j ∧ j < ar2.length
  one : ∀ k a, ar.length ≤ k → ar2[k]? = some a → k ≠ i → a.incoming.length = 1
  rootInc : ∀ a, ar2[i]? = some a → a.incoming = []
  rootK : ∀ a, ar2[i]? = some a → a.kind = NodeKind.start
  kindNS : ∀ k a, ar.length ≤ k → ar2[k]? = some a → k ≠ i → a.kind ≠ NodeKind.start
  sym : ∀ j k a b, ar.length ≤ j → ar.length ≤ k → ar2[j]? = some a → ar2[k]? = some b →
    (k ∈ a.outgoing ↔ j ∈ b.incoming)

/-- As `npost_of_cpost` but for the Start-kind root node. -/
theorem spost_of_cpost (ar : List ANode) (v : ANode) (arC : List ANode)
    (hinc : v.incoming = []) (hout : v.outgoing = [])
    (hstart : v.kind = NodeKind.start)
    (cp : CPost (ar ++ [v]) ar.length arC) : SPost ar ar.length arC := by
  have hL1 : (ar ++ [v]).length = ar.length + 1 := by simp
  have hvget : (ar ++ [v])[ar.length]? = some v := by
    rw [getElem?_append_new ar v ar.length (Nat.le_refl _)]
    simp
  obtain ⟨roots, hroot, hrb, hriff⟩ := cp.par v hvget
  have hlt : ar.length < arC.length := by
    have := cp.le
    omega
  have hrget : ∀ a, arC[ar.length]? = some a →
      a.incoming = [] ∧ a.outgoing = roots ∧ a.kind = v.kind := by
    intro a ha
    rw [hroot, Option.some.injEq] at ha
    rw [← ha, hinc, hout]
    exact ⟨rfl, List.nil_append roots, rfl⟩
  refine ⟨rfl, hlt, ?_, ?_, ?_, ?_, ?_, ?_, ?_, ?_⟩
  · intro k hk
    rw [cp.frame k (by omega) (by omega)]
    exact List.getElem?_append_left hk
  · intro k a hk ha
    by_cases hkL : k = ar.length
    · rw [hkL] at ha
      rw [(hrget a ha).1]
      intro j hj
      exact absurd hj (List.not_mem_nil j)
    · obtain ⟨_, helts⟩ := cp.freshInc k a (by omega) ha
      intro j hj
      rcases helts j hj with h | h
      · rw [h]
        exact ⟨Nat.le_refl _, hlt⟩
      · exact ⟨by omega, h.2⟩
  · intro k a hk ha
    by_cases hkL : k = ar.length
    · rw [hkL] at ha
      rw [(hrget a ha).2.1]
      intro j hj
      have := hrb j hj
      exact ⟨by omega, this.2⟩
    · intro j hj
      have := cp.freshOut k a (by omega) ha j hj
      exact ⟨by omega, this.2⟩
  · intro k a hk ha hkne
    exact (cp.freshInc k a (by omega) ha).1
  · intro a ha
    exact (hrget a ha).1
  · intro a ha
    rw [(hrget a ha).2.2]
    exact hstart
  · intro k a hk ha hkne
    exact cp.kindNS k a (by omega) ha
  · intro j k a b hj hk ha hb
    by_cases hjL : j = ar.length
    · rw [hjL] at ha hj ⊢
      obtain ⟨hai, hao, _⟩ := hrget a ha
      by_cases hkL : k = ar.length
      · rw [hkL] at hb ⊢
        obtain ⟨hbi, _, _⟩ := hrget b hb
        rw [hao, hbi]
        constructor
        · intro hmem
          exact absurd (hrb _ hmem).1 (by omega)
        · intro hmem
          exact absurd hmem (List.not_mem_nil _)
      · rw [hao]
        exact (hriff k b (by omega) hb).symm
    · by_cases hkL : k = ar.length
      · rw [hkL] at hb ⊢
        obtain ⟨hbi, _, _⟩ := hrget b hb
        rw [hbi]
        constructor
        · intro hmem
          exact absurd (cp.freshOut j a (by omega) ha _ hmem).1 (by omega)
        · intro hmem
          exact absurd hmem (List.not_mem_nil _)
      · exact cp.sym j k a b (by omega) (by omega) ha hb

end Sense

namespace Sense

/-- Appending one fresh End node satisfies the node postcondition. -/
theorem npost_single_end (ar : List ANode) (nm : Doc) :
    NPost ar ar.length (ar ++ [⟨NodeKind.endK, nm, [], []⟩]) := by
  have hL1 : (ar ++ [(⟨NodeKind.endK, nm, [], []⟩ : ANode)]).length = ar.length + 1 := by simp
  have hget : ∀ k a, ar.length ≤ k →
      (ar ++ [(⟨NodeKind.endK, nm, [], []⟩ : ANode)])[k]? = some a →
      k = ar.length ∧ a = ⟨NodeKind.endK, nm, [], []⟩ := by
    intro k a hk ha
    rw [getElem?_append_new ar _ k hk] at ha
    by_cases hkL : k = ar.length
    · rw [hkL, if_pos rfl, Option.some.injEq] at ha
      exact ⟨hkL, ha.symm⟩
    · rw [if_neg hkL] at ha
      exact absurd ha (by simp)
  refine ⟨rfl, by omega, ?_, ?_, ?_, ?_, ?_, ?_, ?_⟩
  · intro k hk
    exact List.getElem?_append_left hk
  · intro k a hk ha
    rw [(hget k a hk ha).2]
    intro j hj
    exact absurd hj (List.not_mem_nil j)
  · intro k a hk ha
    rw [(hget k a hk ha).2]
    intro j hj
    exact absurd hj (List.not_mem_nil j)
  · intro k a hk ha hkne
    exact absurd (hget k a hk ha).1 hkne
  · intro a ha
    rw [(hget ar.length a (Nat.le_refl _) ha).2]
  · intro k a hk ha
    rw [(hget k a hk ha).2]
    intro hcontra
    exact NodeKind.noConfusion hcontra
  · intro j k a b hj hk ha hb
    rw [(hget j a hj ha).2, (hget k b hk hb).2]
    constructor
    · intro hmem
      exact absurd hmem (List.not_mem_nil k)
    · intro hmem
      exact absurd hmem (List.not_mem_nil j)

end Sense

namespace Sense

/-- Success analysis of the `EndNode._parse` item loop. -/
theorem endNodeItems_spec :
    ∀ (kvs : List (String × Doc)) (ar : List ANode) (nd : Option Nat)
      (ar2 : List ANode) (nd2 : Option Nat),
      endNodeItems kvs ar nd = some (ar2, nd2) →
      (ar2 = ar ∧ nd2 = nd) ∨
      (nd = none ∧ ∃ nm, ar2 = ar ++ [⟨NodeKind.endK, nm, [], []⟩] ∧ nd2 = some ar.length) := by
  intro kvs
  induction kvs with
  | nil =>
    intro ar nd ar2 nd2 h
    simp only [endNodeItems, Option.some.injEq, Prod.mk.injEq] at h
    exact Or.inl ⟨h.1.symm, h.2.symm⟩
  | cons kv rest ih =>
    intro ar nd ar2 nd2 h
    obtain ⟨ty, fields⟩ := kv
    simp only [endNodeItems] at h
    split at h
    · exact absurd h (by simp)
    · rename_i hnd
      split at h
      · exact absurd h (by simp)
      · rename_i hndn
        split at h
        · rename_i fkvs heq
          split at h
          · rename_i nm hnm
            rcases ih _ _ _ _ h with ⟨ha, hn⟩ | ⟨hnone, _, _, _⟩
            · exact Or.inr ⟨Option.not_isSome_iff_eq_none.mp hndn, nm, ha, hn⟩
            · exact absurd hnone (by simp)
          · exact absurd h (by simp)
        · exact absurd h (by simp)

/-- `EndNode._parse` satisfies the node postcondition. -/
theorem endNodeParse_npost (ar : List ANode) (d : Doc) (i : Nat) (ar2 : List ANode)
    (h : endNodeParse ar d = some (i, ar2)) : NPost ar i ar2 := by
  simp only [endNodeParse] at h
  split at h
  · rename_i kvs
    split at h
    · rename_i hmatch ar3 n hitems
      rw [Option.some.injEq, Prod.mk.injEq] at h
      obtain ⟨rfl, rfl⟩ := h
      rcases endNodeItems_spec kvs ar none ar3 (some n) hitems with ⟨_, hn⟩ | ⟨_, nm, ha, hn⟩
      · exact absurd hn (by simp)
      · rw [Option.some.injEq] at hn
        rw [ha, hn]
        exact npost_single_end ar nm
    · exact absurd h (by simp)
  · exact absurd h (by simp)

end Sense

namespace Sense

/-- Success analysis of the `FlowNode._parse` item loop: a success with a
node returned means one fresh Flow-kind subtree was parsed and wired,
satisfying the node postcondition. -/
theorem flowNodeItems_spec (np : NP)
    (hnp : ∀ ar d i ar2, np ar d = some (i, ar2) → NPost ar i ar2) :
    ∀ (kvs : List (String × Doc)) (ar : List ANode) (nd : Option Nat)
      (ar2 : List ANode) (nd2 : Option Nat),
      flowNodeItems np kvs ar nd = some (ar2, nd2) →
      (ar2 = ar ∧ nd2 = nd) ∨
      (nd = none ∧ NPost ar ar.length ar2 ∧ nd2 = some ar.length) := by
  intro kvs
  induction kvs with
  | nil =>
    intro ar nd ar2 nd2 h
    simp only [flowNodeItems, Option.some.injEq, Prod.mk.injEq] at h
    exact Or.inl ⟨h.1.symm, h.2.symm⟩
  | cons kv rest ih =>
    intro ar nd ar2 nd2 h
    obtain ⟨ty, fields⟩ := kv
    simp only [flowNodeItems] at h
    split at h
    · exact absurd h (by simp)
    · rename_i hty
      split at h
      · exact absurd h (by simp)
      · rename_i hndn
        split at h
        · rename_i fkvs heq
          split at h
          · rename_i nm hnm
            split at h
            · rename_i flowKvs hflowd
              split at h
              · rename_i fl hfl
                split at h
                · rename_i next hnext
                  split at h
                  · rename_i arC hpc
                    split at h
                    · exact absurd h (by simp)
                    · rcases ih _ _ _ _ h with ⟨ha, hn⟩ | ⟨hnone, _, _⟩
                      · have hcp := parseChildren_post np hnp next
                          (ar ++ [⟨NodeKind.flow fl, nm, [], []⟩]) ar.length arC
                          (by simp) hpc
                        have hnpost := npost_of_cpost ar ⟨NodeKind.flow fl, nm, [], []⟩ arC
                          rfl rfl (fun hcon => NodeKind.noConfusion hcon) hcp
                        rw [← ha] at hnpost
                        exact Or.inr ⟨Option.not_isSome_iff_eq_none.mp hndn, hnpost, hn⟩
                      · exact absurd hnone (by simp)
                  · exact absurd h (by simp)
                · exact absurd h (by simp)
              · exact absurd h (by simp)
            · exact absurd h (by simp)
          · exact absurd h (by simp)
        · exact absurd h (by simp)

/-- `FlowNode._parse` satisfies the node postcondition. -/
theorem flowNodeParseAux_npost (np : NP)
    (hnp : ∀ ar d i ar2, np ar d = some (i, ar2) → NPost ar i ar2)
    (ar : List ANode) (d : Doc) (i : Nat) (ar2 : List ANode)
    (h : flowNodeParseAux np ar d = some (i, ar2)) : NPost ar i ar2 := by
  simp only [flowNodeParseAux] at h
  split at h
  · rename_i kvs
    split at h
    · rename_i hmatch ar3 n hitems
      rw [Option.some.injEq, Prod.mk.injEq] at h
      obtain ⟨rfl, rfl⟩ := h
      rcases flowNodeItems_spec np hnp kvs ar none ar3 (some n) hitems with
        ⟨_, hn⟩ | ⟨_, hpost, hn⟩
      · exact absurd hn (by simp)
      · rw [Option.some.injEq] at hn
        rw [hn]
        exact hpost
    · exact absurd h (by simp)
  · exact absurd h (by simp)

/-- `Node._parse` satisfies the node postcondition, for every fuel. -/
theorem nodeParse_npost :
    ∀ (fuel : Nat) (ar : List ANode) (d : Doc) (i : Nat) (ar2 : List ANode),
      nodeParse fuel ar d = some (i, ar2) → NPost ar i ar2 := by
  intro fuel
  induction fuel with
  | zero =>
    intro ar d i ar2 h
    exact absurd h (by simp [nodeParse])
  | succ n ih =>
    intro ar d i ar2 h
    simp only [nodeParse] at h
    split at h
    · rename_i r hflow
      rw [Option.some.injEq] at h
      rw [h] at hflow
      exact flowNodeParseAux_npost (nodeParse n) ih ar d i ar2 hflow
    · exact endNodeParse_npost ar d i ar2 h

end Sense

namespace Sense

/-- Success analysis of the `StartNode._parse` item loop. -/
theorem startNodeItems_spec (np : NP)
    (hnp : ∀ ar d i ar2, np ar d = some (i, ar2) → NPost ar i ar2) :
    ∀ (kvs : List (String × Doc)) (ar : List ANode) (nd : Option Nat)
      (ar2 : List ANode) (nd2 : Option Nat),
      startNodeItems np kvs ar nd = some (ar2, nd2) →
      (ar2 = ar ∧ nd2 = nd) ∨
      (nd = none ∧ SPost ar ar.length ar2 ∧ nd2 = some ar.length) := by
  intro kvs
  induction kvs with
  | nil =>
    intro ar nd ar2 nd2 h
    simp only [startNodeItems, Option.some.injEq, Prod.mk.injEq] at h
    exact Or.inl ⟨h.1.symm, h.2.symm⟩
  | cons kv rest ih =>
    intro ar nd ar2 nd2 h
    obtain ⟨ty, fields⟩ := kv
    simp only [startNodeItems] at h
    split at h
    · exact absurd h (by simp)
    · rename_i hty
      split at h
      · exact absurd h (by simp)
      · rename_i hndn
        split at h
        · rename_i fkvs heq
          split at h
          · rename_i nm hnm
            split at h
            · rename_i next hnext
              split at h
              · rename_i arC hpc
                split at h
                · exact absurd h (by simp)
                · rcases ih _ _ _ _ h with ⟨ha, hn⟩ | ⟨hnone, _, _⟩
                  · have hcp := parseChildren_post np hnp next
                      (ar ++ [⟨NodeKind.start, nm, [], []⟩]) ar.length arC
                      (by simp) hpc
                    have hspost := spost_of_cpost ar ⟨NodeKind.start, nm, [], []⟩ arC
                      rfl rfl rfl hcp
                    rw [← ha] at hspost
                    exact Or.inr ⟨Option.not_isSome_iff_eq_none.mp hndn, hspost, hn⟩
                  · exact absurd hnone (by simp)
              · exact absurd h (by simp)
            · exact absurd h (by simp)
          · exact absurd h (by simp)
        · exact absurd h (by simp)

/-- `StartNode._parse` (which begins from an empty arena) satisfies the
Start-node postcondition: its root is node 0. -/
theorem startNodeParse_spost (fuel : Nat) (d : Doc) (i : Nat) (ar2 : List ANode)
    (h : startNodeParse fuel d = some (i, ar2)) : SPost [] i ar2 := by
  simp only [startNodeParse] at h
  split at h
  · rename_i kvs
    split at h
    · rename_i hmatch ar3 n hitems
      rw [Option.some.injEq, Prod.mk.injEq] at h
      obtain ⟨rfl, rfl⟩ := h
      rcases startNodeItems_spec (nodeParse fuel) (nodeParse_npost fuel) kvs [] none ar3
        (some n) hitems with ⟨_, hn⟩ | ⟨_, hpost, hn⟩
      · exact absurd hn (by simp)
      · rw [Option.some.injEq] at hn
        rw [hn]
        exact hpost
    · exact absurd h (by simp)
  · exact absurd h (by simp)

end Sense

namespace Sense

/-! ## Concrete inputs used by witnesses and counterexamples -/

/-- A TimedNoiseFlow with duration 1s, bandwidth 1000 bytes/sec, chunks of
100 bytes. -/
def fl0 : TimedNoiseFlow :=
  ⟨⟨1⟩, ⟨1000⟩, ⟨100⟩, ⟨"eth0", 10⟩, ⟨"10.0.0.1", 20⟩⟩

def endDocNamed (nm : String) : Doc :=
  .m [("end", .m [("name", .s nm)])]

def flowBodyDoc : Doc := .m [
  ("kind", .s "TimedNoise"), ("time", .s "1s"), ("bandwidth", .s "1KB"),
  ("chunk_size", .s "100B"),
  ("source", .m [("interface", .s "eth0"), ("port", .i 10)]),
  ("target", .m [("addr", .s "10.0.0.1"), ("port", .i 20)])]

/-- Document: Start(main) with children Flow(F) -> End(E) and End(B). -/
def docFG : Doc := .m [("start", .m [("name", .s "main"),
  ("next", .l [
    .m [("flow", .m [("name", .s "F"), ("flow", flowBodyDoc),
      ("next", .l [endDocNamed "E"])])],
    endDocNamed "B"])])]

/-- The arena the parser builds from `docFG`. -/
def arFG : List ANode := [
  ⟨.start, .s "main", [], [1, 3]⟩,
  ⟨.flow fl0, .s "F", [0], [2]⟩,
  ⟨.endK, .s "E", [1], []⟩,
  ⟨.endK, .s "B", [0], []⟩]

/-- Document: Start(main) with two End children A then B, in that order. -/
def docC3 : Doc := .m [("start", .m [("name", .s "main"),
  ("next", .l [endDocNamed "A", endDocNamed "B"])])]

/-- The arena the parser builds from `docC3`: the children of node 0 are
node 1 (A) and node 2 (B), in document order. -/
def arC3 : List ANode := [
  ⟨.start, .s "main", [], [1, 2]⟩,
  ⟨.endK, .s "A", [0], []⟩,
  ⟨.endK, .s "B", [0], []⟩]

def docStartPlain : Doc := .m [("start", .m [("name", .s "main"),
  ("next", .l [endDocNamed "E"])])]

def docStartBracket : Doc := .m [("<start>", .m [("name", .s "main"),
  ("next", .l [endDocNamed "E"])])]

def docFlowPlain : Doc := .m [("start", .m [("name", .s "main"),
  ("next", .l [.m [("flow", .m [("name", .s "F"), ("flow", flowBodyDoc),
    ("next", .l [endDocNamed "E"])])]])])]

def docFlowBracket : Doc := .m [("start", .m [("name", .s "main"),
  ("next", .l [.m [("<flow>", .m [("name", .s "F"), ("flow", flowBodyDoc),
    ("next", .l [endDocNamed "E"])])]])])]

def docEndBracket : Doc := .m [("start", .m [("name", .s "main"),
  ("next", .l [.m [("<end>", .m [("name", .s "E")])]])])]

/-! ## Claims -/

/-- C1: the claim says the execution unit launched by spawn repeatedly
sends a datagram of chunk_size random bytes, pauses chunk_size/bandwidth
seconds between sends until the duration elapses, and then sets done to
true.  The code instead dies on the first loop iteration: `sock.send` is
called with the address tuple in the position of the integer `flags`
argument, raising TypeError before any datagram leaves (and the pacing
expression `1.0 / (self.bandwidth / self.chunk_size)` would likewise raise,
dividing two Bytes objects).  For any flow and any clock reading that
enters the loop, the body performs no event, dies with TypeError, and
never sets done. -/
theorem spawn_body_raises_before_any_send :
    ∀ (f : TimedNoiseFlow) (start t : Rat) (ts : List Rat),
      t - start < f.time.amount →
      timedNoiseBody f start (t :: ts) = ⟨[], some PyErr.typeError, false⟩ := by
  intro f start t ts h
  simp only [timedNoiseBody, if_pos h]
  rfl

/-- Witness: the flow `fl0` (1 second duration) with the clock at 0. -/
theorem spawn_body_raises_before_any_send_witness :
    (0 : Rat) - 0 < fl0.time.amount
    ∧ timedNoiseBody fl0 0 [0] = ⟨[], some PyErr.typeError, false⟩ :=
  ⟨by decide, spawn_body_raises_before_any_send fl0 0 0 [] (by decide)⟩

/-- C2: a popped node is processed only when every incoming Flow-kind node
has its done flag set (first conjunct: every process step satisfies the
gate), and as soon as that holds the process step fires, spawning a
Flow-kind node and pushing its children in the same step without any
condition on the done flag of the node itself (second conjunct: the step is
enabled by the gate alone, whatever the doneFlags and spawned components
say about the node being processed). -/
theorem engine_gates_only_on_incoming_flows :
    (∀ (ar : List ANode) (s s2 : TState) (n : Nat),
        EStep ar s (ELabel.process n) s2 →
        ∀ p ∈ incomingOf ar n, isFlowNode ar p = true → p ∈ s.doneFlags)
    ∧ (∀ (ar : List ANode) (s : TState) (n : Nat) (rest : List Nat),
        s.stack = n :: rest →
        (∀ p ∈ incomingOf ar n, isFlowNode ar p = true → p ∈ s.doneFlags) →
        EStep ar s (ELabel.process n)
          ⟨(outgoingOf ar n).reverse ++ rest, s.doneFlags,
            if isFlowNode ar n then s.spawned ++ [n] else s.spawned⟩) := by
  constructor
  · intro ar s s2 n h
    cases h with
    | process _ rest hstack hdone => exact hdone
  · intro ar s n rest hstack hdone
    exact EStep.process s n rest hstack hdone

/-- Witness: in the graph of `docFG`, the End node 2 whose predecessor is
the Flow node 1 is processed in a state where flow 1 is done (and the flow
1 itself had earlier been processed without its own done flag set, as the
gate only mentions incoming nodes). -/
theorem engine_gates_only_on_incoming_flows_witness :
    (∀ p ∈ incomingOf arFG 2, isFlowNode arFG p = true → p ∈ ([1] : List Nat))
    ∧ EStep arFG ⟨[2], [1], [1]⟩ (ELabel.process 2)
        ⟨(outgoingOf arFG 2).reverse ++ [], [1],
          if isFlowNode arFG 2 then [1] ++ [2] else [1]⟩ :=
  ⟨by decide, engine_gates_only_on_incoming_flows.2 arFG ⟨[2], [1], [1]⟩ 2 [] rfl (by decide)⟩

/-- C3 counterexample: the claim says outgoing children are visited in
document order.  Parsing `docC3` yields Start node 0 with outgoing [1, 2]
(A before B, document order), yet the engine visits node 2 (B) before
node 1 (A): the visit order is [0, 2, 1].  On this End-only graph the
dependency wait of the engine never fires, so the fuelled run is the exact
traversal of workflow-agent.py. -/
theorem children_visited_in_document_order_cex :
    startNodeParse 10 docC3 = some (0, arC3)
    ∧ outgoingOf arC3 0 = [1, 2]
    ∧ (engineRun arC3 10 [0]).1 = [0, 2, 1] :=
  ⟨rfl, rfl, rfl⟩

/-- C3 amended: outgoing children are pushed in document order onto a LIFO
stack, so they are popped for processing in reverse document order.  First
conjunct: after processing a node the stack is the reversed outgoing list
on top of the rest.  Second conjunct: only the stack head can be processed.
Third conjunct: background flow completions do not change the stack.
Together: the node processed right after a node with children is its last
listed child, and sibling subtrees are traversed last-to-first. -/
theorem children_pushed_in_order_visited_in_reverse :
    (∀ (ar : List ANode) (s s2 : TState) (n : Nat) (rest : List Nat),
        s.stack = n :: rest → EStep ar s (ELabel.process n) s2 →
        s2.stack = (outgoingOf ar n).reverse ++ rest)
    ∧ (∀ (ar : List ANode) (s s2 : TState) (n : Nat),
        EStep ar s (ELabel.process n) s2 → s.stack.head? = some n)
    ∧ (∀ (ar : List ANode) (s s2 : TState) (n : Nat),
        EStep ar s (ELabel.finish n) s2 → s2.stack = s.stack) := by
  refine ⟨?_, ?_, ?_⟩
  · intro ar s s2 n rest hstack h
    cases h with
    | process _ rest0 hstack0 hdone =>
      have heq : n :: rest = n :: rest0 := hstack ▸ hstack0
      rw [List.cons.injEq] at heq
      rw [heq.2]
  · intro ar s s2 n h
    cases h with
    | process _ rest0 hstack0 hdone =>
      rw [hstack0]
      rfl
  · intro ar s s2 n h
    cases h with
    | finish _ hs hd => rfl

/-- Witness: processing the Start node of `arC3` leaves [2, 1] on the
stack (reverse of its outgoing list [1, 2]); a finish step elsewhere keeps
a stack unchanged. -/
theorem children_pushed_in_order_visited_in_reverse_witness :
    (⟨(outgoingOf arC3 0).reverse ++ [], [], if isFlowNode arC3 0 then [] ++ [0] else []⟩
        : TState).stack = (outgoingOf arC3 0).reverse ++ []
    ∧ (⟨[0], [], []⟩ : TState).stack.head? = some 0
    ∧ (⟨[2], [] ++ [1], [1]⟩ : TState).stack = (⟨[2], [], [1]⟩ : TState).stack :=
  ⟨children_pushed_in_order_visited_in_reverse.1 arC3 ⟨[0], [], []⟩ _ 0 [] rfl
      (EStep.process ⟨[0], [], []⟩ 0 [] rfl (by decide)),
    children_pushed_in_order_visited_in_reverse.2.1 arC3 ⟨[0], [], []⟩ _ 0
      (EStep.process ⟨[0], [], []⟩ 0 [] rfl (by decide)),
    children_pushed_in_order_visited_in_reverse.2.2 arC3 ⟨[2], [], [1]⟩ _ 1
      (EStep.finish ⟨[2], [], [1]⟩ 1 (by decide) (by decide))⟩

/-- C4: the byte parser distinguishes the binary-bit, decimal-bit and
decimal-byte suffixes: 1Kib is 1024/8 = 128 bytes, 1Kb is 1000/8 = 125
bytes, 1KB is 1000 bytes, pairwise distinct. -/
theorem bytes_suffix_precedence :
    Bytes.parse "1Kib" = some ⟨128⟩ ∧ Bytes.parse "1Kb" = some ⟨125⟩
    ∧ Bytes.parse "1KB" = some ⟨1000⟩
    ∧ (Bytes.parse "1Kib" == Bytes.parse "1Kb") = false
    ∧ (Bytes.parse "1Kb" == Bytes.parse "1KB") = false
    ∧ (Bytes.parse "1Kib" == Bytes.parse "1KB") = false := by
  refine ⟨rfl, rfl, rfl, ?_, ?_, ?_⟩ <;> decide

/-- C5: the claim (and spec section 4.1) says duration suffixes are tried
longest-match first, so that n followed by the full words minutes, seconds,
hours parses to n*60, n, n*3600 seconds.  The code tries the one-character
suffix "s" first: "1minutes" is stripped to "1minute", which is not
numeric, so the parse returns an error instead of 60 seconds; likewise
"1seconds" and "1hours".  The full-word branches of the source are
unreachable dead code (any string ending in them ends in "s"), showing the
spec is the intent.  The short forms still work: 1min is 60s, 1s is 1s,
1hr is 3600s. -/
theorem duration_full_word_suffixes_rejected :
    Duration.parse "1minutes" = none ∧ Duration.parse "1seconds" = none
    ∧ Duration.parse "1hours" = none
    ∧ Duration.parse "1min" = some ⟨60⟩ ∧ Duration.parse "1s" = some ⟨1⟩
    ∧ Duration.parse "1hr" = some ⟨3600⟩ :=
  ⟨rfl, rfl, rfl, rfl, rfl, rfl⟩

/-- C6 counterexample: the round-trip claim includes the duration
formatter, but parsing a formatted duration always fails: 90 seconds
formats to "1.5 minutes", the parser strips the trailing "s" (its first
suffix test), and "1.5 minute" is not numeric, so parse returns an error
and format(parse(format x)) is undefined at x = 90. -/
theorem duration_roundtrip_fails_cex :
    Duration.parse (Duration.as_human_duration ⟨90⟩) = none :=
  rfl

/-- C6 amended: the round trip format(parse(format x)) = format x holds for
the byte formatters, SI and IEC, at the unit-boundary values 999, 1000,
1023 and 1024 named by the claim (exact-arithmetic model of the float
computations), but fails for the duration formatter: parsing a formatted
duration returns an error for every formatter branch (seconds, minutes,
hours, singular and plural), because the formatted string carries a unit
word whose trailing "s" is stripped, leaving a non-numeric remainder. -/
theorem byte_roundtrips_duration_does_not :
    (rtSI 999 = true ∧ rtSI 1000 = true ∧ rtSI 1023 = true ∧ rtSI 1024 = true)
    ∧ (rtIEC 999 = true ∧ rtIEC 1000 = true ∧ rtIEC 1023 = true ∧ rtIEC 1024 = true)
    ∧ (Duration.parse (Duration.as_human_duration ⟨0⟩) = none
       ∧ Duration.parse (Duration.as_human_duration ⟨1⟩) = none
       ∧ Duration.parse (Duration.as_human_duration ⟨2⟩) = none
       ∧ Duration.parse (Duration.as_human_duration ⟨60⟩) = none
       ∧ Duration.parse (Duration.as_human_duration ⟨120⟩) = none
       ∧ Duration.parse (Duration.as_human_duration ⟨3600⟩) = none
       ∧ Duration.parse (Duration.as_human_duration ⟨7200⟩) = none) :=
  ⟨⟨rfl, rfl, rfl, rfl⟩, ⟨rfl, rfl, rfl, rfl⟩, rfl, rfl, rfl, rfl, rfl, rfl, rfl⟩

/-- C7: the claim says each node parser accepts the bracketed spelling of
its key as well as the plain one.  The guards in the source compare the
Python builtin `type` with the bracketed string (a typo for the loop
variable `ty`), a comparison that is always true, so only the plain
spellings parse: documents using <start>, <flow> or <end> are rejected
outright while their plain twins succeed. -/
theorem bracketed_spellings_rejected :
    (startNodeParse 10 docStartPlain).isSome = true
    ∧ startNodeParse 10 docStartBracket = none
    ∧ (startNodeParse 10 docFlowPlain).isSome = true
    ∧ startNodeParse 10 docFlowBracket = none
    ∧ (startNodeParse 10 docStartPlain).isSome = true
    ∧ startNodeParse 10 docEndBracket = none :=
  ⟨rfl, rfl, rfl, rfl, rfl, rfl⟩

/-- C8: an empty document (the YAML loader returns nothing) is not fatal:
parse_handle yields a workflow whose graph is the single childless Start
node with the placeholder name <start>; the traversal visits just that
node, spawns no flow, and terminates for every sufficient fuel, and the
node has no incoming Flow-kind predecessor to wait on. -/
theorem empty_document_yields_trivial_workflow :
    parseHandle "wf" none 10
      = some ⟨"wf", [⟨NodeKind.start, Doc.s "<start>", [], []⟩], 0⟩
    ∧ (∀ f : Nat,
        engineRun [⟨NodeKind.start, Doc.s "<start>", [], []⟩] (f + 1) [0] = ([0], []))
    ∧ incomingOf [⟨NodeKind.start, Doc.s "<start>", [], []⟩] 0 = [] := by
  refine ⟨rfl, ?_, rfl⟩
  intro f
  cases f with
  | zero => rfl
  | succ n => rfl

/-- C9: edge symmetry in every graph returned by the parser: a node k is in
the outgoing list of j exactly when j is in the incoming list of k.  (The
execution engine takes the arena as a fixed parameter and its steps change
only the stack, doneFlags and spawned components, so the edges are never
mutated after construction.) -/
theorem parsed_graph_edge_symmetry :
    ∀ (fuel : Nat) (d : Doc) (root : Nat) (ar : List ANode),
      startNodeParse fuel d = some (root, ar) →
      ∀ (j k : Nat) (a b : ANode), ar[j]? = some a → ar[k]? = some b →
        (k ∈ a.outgoing ↔ j ∈ b.incoming) := by
  intro fuel d root ar h j k a b ha hb
  exact (startNodeParse_spost fuel d root ar h).sym j k a b (Nat.zero_le j) (Nat.zero_le k) ha hb

/-- Witness: the graph parsed from `docFG` is edge-symmetric. -/
theorem parsed_graph_edge_symmetry_witness :
    startNodeParse 10 docFG = some (0, arFG)
    ∧ (∀ (j k : Nat) (a b : ANode), arFG[j]? = some a → arFG[k]? = some b →
        (k ∈ a.outgoing ↔ j ∈ b.incoming)) :=
  ⟨rfl, parsed_graph_edge_symmetry 10 docFG 0 arFG rfl⟩

/-- C10: every graph produced by StartNode._parse is a tree: the root is
node 0, the only Start-kind node, with no incoming edges, and every other
node in the arena has an incoming list of length exactly one (each nested
document creates a fresh node reachable from its unique parent; nodes are
never shared between parents). -/
theorem parsed_graph_is_tree :
    ∀ (fuel : Nat) (d : Doc) (root : Nat) (ar : List ANode),
      startNodeParse fuel d = some (root, ar) →
      root = 0
      ∧ (∀ a, ar[0]? = some a → a.incoming = [] ∧ a.kind = NodeKind.start)
      ∧ (∀ (k : Nat) (a : ANode), ar[k]? = some a → k ≠ 0 →
          a.incoming.length = 1 ∧ a.kind ≠ NodeKind.start) := by
  intro fuel d root ar h
  have sp := startNodeParse_spost fuel d root ar h
  have hroot : root = 0 := sp.root
  refine ⟨hroot, ?_, ?_⟩
  · intro a ha
    have ha0 : ar[root]? = some a := by rw [hroot]; exact ha
    exact ⟨sp.rootInc a ha0, sp.rootK a ha0⟩
  · intro k a ha hk
    have hkr : k ≠ root := by rw [hroot]; exact hk
    exact ⟨sp.one k a (Nat.zero_le k) ha hkr, sp.kindNS k a (Nat.zero_le k) ha hkr⟩

/-- Witness: in the graph parsed from `docFG`, nodes 1, 2, 3 each have
exactly one incoming edge and only node 0 is Start-kind. -/
theorem parsed_graph_is_tree_witness :
    startNodeParse 10 docFG = some (0, arFG)
    ∧ ((0 : Nat) = 0
       ∧ (∀ a, arFG[0]? = some a → a.incoming = [] ∧ a.kind = NodeKind.start)
       ∧ (∀ (k : Nat) (a : ANode), arFG[k]? = some a → k ≠ 0 →
           a.incoming.length = 1 ∧ a.kind ≠ NodeKind.start)) :=
  ⟨rfl, parsed_graph_is_tree 10 docFG 0 arFG rfl⟩

end Sense
